import Mathlib

set_option maxRecDepth 8000

/-!
Verification of the analytics core of the yfinanceScreener repository.

The backend algorithms are embedded from the code listings in
`src/docs/LLD.md` (`resample_to_weekly`, `compute_indicators`,
`apply_filters`, `calculate_rsi`, `calculate_ema`, and the sector-heatmap
and analysis route algorithms); frontend behaviour is embedded from
`src/frontend/src/components/Analysis.js`.  Pandas/NumPy missing-value
and infinity semantics are made explicit: series cells that pandas would
hold as NaN are `Option`-valued (or use the `FVal` type defined below for
pipelines in which infinities can arise), and a comparison against a
missing value is `false`, as in NumPy.
-/

namespace Screener

/-- Market-phase label: the `stage` column built by `compute_indicators`
in `src/docs/LLD.md` holds one of `'Unknown'`, `'Stage 2'`, `'Stage 4'`. -/

inductive Stage where
  | unknown
  | stage2
  | stage4
  deriving DecidableEq, Repr

/-- Pandas semantics of `a > b` between float cells: a comparison in which
either side is missing (NaN) is `false`. -/

def optGT : Option ℚ → Option ℚ → Bool
  | some x, some y => decide (y < x)
  | _, _ => false

/-- `Series.rolling(window=w).mean()` over a never-missing column: the cell
at index `i` is the mean of the `w` entries ending at `i`, and is missing
while fewer than `w` entries exist (`min_periods` defaults to the window). -/

def rollingMeanQ (w : ℕ) (xs : List ℚ) : List (Option ℚ) :=
  (List.range xs.length).map fun i =>
    if w ≤ i + 1 then some ((((xs.drop (i + 1 - w)).take w).sum) / w) else none

/-- `Series.shift(1)`: cell `i` receives the value of cell `i - 1`, and
cell 0 becomes missing. -/

def shift1 (xs : List (Option ℚ)) : List (Option ℚ) :=
  match xs with
  | [] => []
  | _ :: _ => none :: xs.dropLast

/-- Stage determination from `compute_indicators` (`src/docs/LLD.md`,
lines 484-486): the cell starts as `'Unknown'` and is overwritten with
`'Stage 2'` where `close > ma30 ∧ ma30 > ma30.shift(1)`, then with
`'Stage 4'` where `close < ma30 ∧ ma30 < ma30.shift(1)`; comparisons
against a missing value are `false`. -/

def stageOf (close : ℚ) (ma30 ma30Prev : Option ℚ) : Stage :=
  let s := Stage.unknown
  let s := if optGT (some close) ma30 && optGT ma30 ma30Prev then Stage.stage2 else s
  let s := if optGT ma30 (some close) && optGT ma30Prev ma30 then Stage.stage4 else s
  s

/-- The `ma30` column of `compute_indicators`:
`df['close'].rolling(window=30).mean()`. -/

def ma30Col (closes : List ℚ) : List (Option ℚ) := rollingMeanQ 30 closes

/-- The `stage` column of `compute_indicators`: one label per weekly
index, derived from the `close`, `ma30` and shifted `ma30` columns. -/

def stageCol (closes : List ℚ) : List Stage :=
  (List.range closes.length).map fun i =>
    stageOf (closes.getD i 0) ((ma30Col closes).getD i none)
      ((shift1 (ma30Col closes)).getD i none)

/-- One row of the weekly dataframe consumed by `apply_filters`
(`src/docs/LLD.md`, lines 493-514): the `close`, `high`, `ma30` and
`stage` cells of a weekly bar; `ma30` is missing while fewer than 30
weeks of history exist. -/

structure WeeklyRow where
  close : ℚ
  high : ℚ
  ma30 : Option ℚ
  stage : Stage
  deriving DecidableEq, Repr

/-- Condition 1 of `apply_filters`: `latest_week['stage'] == 'Stage 2'`. -/

def condition_1 (r : WeeklyRow) : Bool := decide (r.stage = Stage.stage2)

/-- Condition 2 of `apply_filters`:
`(high - close) / close * 100 < 5` (close within 5% of the week's high). -/

def condition_2 (r : WeeklyRow) : Bool :=
  decide ((r.high - r.close) / r.close * 100 < 5)

/-- Condition 3 of `apply_filters`:
`(close - ma30) / ma30 * 100 < 20`; when `ma30` is missing the NaN
arithmetic makes the comparison `false`. -/

def condition_3 (r : WeeklyRow) : Bool :=
  match r.ma30 with
  | some m => decide ((r.close - m) / m * 100 < 20)
  | none => false

/-- The score accumulation of `apply_filters`: start from 0 and add
33.33, 33.33 and 33.34 for the conditions that hold. -/

def apply_filters (r : WeeklyRow) : ℚ :=
  let score : ℚ := 0
  let score := if condition_1 r then score + 33.33 else score
  let score := if condition_2 r then score + 33.33 else score
  let score := if condition_3 r then score + 33.34 else score
  score

/-- Modelled from the spec: the route code that serializes the Weinstein
score is not in the repository; per the spec the score is reported
rounded to the nearest integer. -/

def reported_score (r : WeeklyRow) : ℤ := round (apply_filters r)

/-- The weekly dataframe rows fed to `apply_filters`, assembled from the
`close` and `high` columns exactly as `compute_indicators` builds the
`ma30` and `stage` columns; one input pair per week. -/

def weeklyRows (weeks : List (ℚ × ℚ)) : List WeeklyRow :=
  let closes := weeks.map Prod.fst
  (List.range weeks.length).map fun i =>
    { close := closes.getD i 0
      high := (weeks.map Prod.snd).getD i 0
      ma30 := (ma30Col closes).getD i none
      stage := stageOf (closes.getD i 0) ((ma30Col closes).getD i none)
        ((shift1 (ma30Col closes)).getD i none) }

/-- `df.iloc[-1]` of the weekly dataframe: the latest classified week. -/

def weinstein_latest (weeks : List (ℚ × ℚ)) : Option WeeklyRow :=
  (weeklyRows weeks).getLast?

/-- One smoothing step of `ewm(span=period, adjust=False)`:
`y_t = (1 - m) * y_{t-1} + m * x_t` with multiplier `m = 2/(period+1)`. -/

def emaStep (period : ℕ) (prev x : ℚ) : ℚ :=
  let mult : ℚ := 2 / (period + 1)
  (1 - mult) * prev + mult * x

/-- `calculate_ema` from `src/docs/LLD.md` (lines 1190-1197):
`prices.ewm(span=period, adjust=False).mean()`.  The recursion is seeded
with the first price and produces a value at every index. -/

def calculate_ema (period : ℕ) (prices : List ℚ) : List ℚ :=
  match prices with
  | [] => []
  | p :: ps => List.scanl (emaStep period) p ps

/-- The EMA contract exactly as claim C4 states it, for comparison with
`calculate_ema`: undefined below index `period - 1`, seeded at index
`period - 1` with the simple average of the first `period` closes, then
recursively smoothed with multiplier `2/(period+1)`. -/

def claimed_ema (period : ℕ) (prices : List ℚ) : List (Option ℚ) :=
  if prices.length < period then List.replicate prices.length none
  else
    List.replicate (period - 1) none ++
      (List.scanl (emaStep period) ((prices.take period).sum / period)
        (prices.drop period)).map some

/-- IEEE-style extended value for the pandas float pipelines in which
NaN and infinities arise: a missing cell (`nan`), `+inf`, `-inf`, or a
finite rational. -/

inductive FVal where
  | nan
  | inf
  | ninf
  | fin (q : ℚ)
  deriving DecidableEq, Repr

namespace FVal

/-- IEEE addition: NaN propagates; `+inf + -inf` is NaN; an infinity
absorbs finite addends. -/
def fadd : FVal → FVal → FVal
  | nan, _ => nan
  | inf, nan => nan
  | ninf, nan => nan
  | fin _, nan => nan
  | inf, inf => inf
  | inf, ninf => nan
  | ninf, inf => nan
  | ninf, ninf => ninf
  | inf, fin _ => inf
  | ninf, fin _ => ninf
  | fin _, inf => inf
  | fin _, ninf => ninf
  | fin a, fin b => fin (a + b)

/-- IEEE negation. -/
def fneg : FVal → FVal
  | nan => nan
  | inf => ninf
  | ninf => inf
  | fin a => fin (-a)

/-- IEEE subtraction. -/
def fsub (a b : FVal) : FVal := fadd a (fneg b)

/-- IEEE division (NumPy semantics): NaN propagates; `x/0` is `±inf` for
nonzero finite `x` and NaN for `0/0`; a finite value divided by an
infinity is 0; infinity over infinity is NaN. -/
def fdiv : FVal → FVal → FVal
  | nan, _ => nan
  | inf, nan => nan
  | ninf, nan => nan
  | fin _, nan => nan
  | inf, inf => nan
  | inf, ninf => nan
  | ninf, inf => nan
  | ninf, ninf => nan
  | inf, fin b => if 0 ≤ b then inf else ninf
  | ninf, fin b => if 0 ≤ b then ninf else inf
  | fin _, inf => fin 0
  | fin _, ninf => fin 0
  | fin a, fin b =>
    if b = 0 then (if a = 0 then nan else if 0 < a then inf else ninf)
    else fin (a / b)

/-- IEEE `<`: any comparison involving NaN is `false`. -/
def flt : FVal → FVal → Bool
  | nan, _ => false
  | inf, nan => false
  | ninf, nan => false
  | fin _, nan => false
  | inf, inf => false
  | inf, ninf => false
  | inf, fin _ => false
  | ninf, inf => true
  | ninf, ninf => false
  | ninf, fin _ => true
  | fin _, inf => true
  | fin _, ninf => false
  | fin a, fin b => decide (a < b)

/-- IEEE `>`. -/
def fgt (a b : FVal) : Bool := flt b a

/-- Is the cell missing? -/
def isNan : FVal → Bool
  | nan => true
  | inf => false
  | ninf => false
  | fin _ => false

end FVal

/-- `prices.diff()`: the first cell is missing, then successive
differences. -/

def diffF (prices : List ℚ) : List FVal :=
  match prices with
  | [] => []
  | p :: ps =>
    FVal.nan :: List.zipWith (fun prev cur => FVal.fin (cur - prev)) (p :: ps) ps

/-- `gain = delta.where(delta > 0, 0)` from `calculate_rsi`: positive
deltas survive, everything else (including the missing first delta, whose
comparison is `false`) becomes 0. -/

def gainsF (deltas : List FVal) : List FVal :=
  deltas.map fun d => if FVal.fgt d (FVal.fin 0) then d else FVal.fin 0

/-- `loss = -delta.where(delta < 0, 0)` from `calculate_rsi`. -/

def lossesF (deltas : List FVal) : List FVal :=
  deltas.map fun d => FVal.fneg (if FVal.flt d (FVal.fin 0) then d else FVal.fin 0)

/-- `Series.rolling(window=w).mean()` over a possibly-missing column with
the default `min_periods` (equal to the window): the cell is missing
while fewer than `w` cells exist and whenever any cell of the window is
missing; infinite cells are ordinary observations, so the mean of a
window containing `+inf` is `+inf`. -/

def rollingMeanF (w : ℕ) (xs : List FVal) : List FVal :=
  (List.range xs.length).map fun i =>
    if w ≤ i + 1 then
      let win := (xs.drop (i + 1 - w)).take w
      if win.any FVal.isNan then FVal.nan
      else FVal.fdiv (win.foldl FVal.fadd (FVal.fin 0)) (FVal.fin w)
    else FVal.nan

/-- `avg_gain` of `calculate_rsi` (`src/docs/LLD.md`, lines 1141-1159). -/

def avg_gain (period : ℕ) (prices : List ℚ) : List FVal :=
  rollingMeanF period (gainsF (diffF prices))

/-- `avg_loss` of `calculate_rsi`. -/

def avg_loss (period : ℕ) (prices : List ℚ) : List FVal :=
  rollingMeanF period (lossesF (diffF prices))

/-- `calculate_rsi` (`src/docs/LLD.md`, lines 1141-1159):
`rs = avg_gain / avg_loss`, `rsi = 100 - 100/(1+rs)` in float semantics. -/

def calculate_rsi (period : ℕ) (prices : List ℚ) : List FVal :=
  (List.zipWith FVal.fdiv (avg_gain period prices) (avg_loss period prices)).map
    fun rs => FVal.fsub (FVal.fin 100) (FVal.fdiv (FVal.fin 100) (FVal.fadd (FVal.fin 1) rs))

/-- The latest-day indicator values consumed by the analysis-route score
(`GET /api/analysis/data`, `src/docs/LLD.md` lines 368-380); `rsi` is
missing when history is insufficient. -/

structure DailyIndicators where
  rsi : Option ℚ
  macd : ℚ
  macd_signal : ℚ
  ema_21 : ℚ
  ema_44 : ℚ
  ema_200 : ℚ
  close : ℚ
  deriving DecidableEq, Repr

/-- Modelled from the spec: the analysis route code is absent from src/;
per the LLD algorithm (`RSI 30-70: +25 points`) and the spec, an RSI in
the neutral 30-70 band contributes 25 points and a missing RSI
contributes 0. -/

def rsi_component (d : DailyIndicators) : ℕ :=
  match d.rsi with
  | some x => if 30 ≤ x ∧ x ≤ 70 then 25 else 0
  | none => 0

/-- `MACD Bullish: +25 points` — the MACD line above its signal line. -/

def macd_component (d : DailyIndicators) : ℕ :=
  if d.macd_signal < d.macd then 25 else 0

/-- `EMA 21 > EMA 44: +25 points`. -/

def ema_cross_component (d : DailyIndicators) : ℕ :=
  if d.ema_44 < d.ema_21 then 25 else 0

/-- `Price > EMA 200: +25 points`. -/

def ema200_component (d : DailyIndicators) : ℕ :=
  if d.ema_200 < d.close then 25 else 0

/-- The 100-point confidence score of the analysis route: the unweighted
sum of the four binary components. -/

def confidence_total (d : DailyIndicators) : ℕ :=
  rsi_component d + macd_component d + ema_cross_component d + ema200_component d

/-- A daily OHLCV bar; `ts` is the day number with day 0 a Saturday, so
that every 7-day block `[7k, 7k+6]` is one exchange week ending on a
Friday — the `W-FRI` bins of `resample_to_weekly`. -/

structure Bar where
  ts : ℕ
  open_ : ℚ
  high : ℚ
  low : ℚ
  close : ℚ
  volume : ℕ
  deriving DecidableEq, Repr

/-- The `W-FRI` bin holding a day. -/

def weekKey (ts : ℕ) : ℕ := ts / 7

/-- One aggregated weekly row: the OHLC cells are missing for an empty
bin (pandas `first`/`max`/`min`/`last` of no rows), the volume sum is 0. -/

structure WeeklyBar where
  open_ : Option ℚ
  high : Option ℚ
  low : Option ℚ
  close : Option ℚ
  volume : ℕ
  deriving DecidableEq, Repr

/-- `max` aggregation of a bin column. -/

def maxQ : List ℚ → Option ℚ
  | [] => none
  | x :: xs => some (xs.foldl max x)

/-- `min` aggregation of a bin column. -/

def minQ : List ℚ → Option ℚ
  | [] => none
  | x :: xs => some (xs.foldl min x)

/-- The `agg` dictionary of `resample_to_weekly`: first open, max high,
min low, last close, summed volume of the daily bars of one bin. -/

def aggWeek (g : List Bar) : WeeklyBar :=
  { open_ := (g.map Bar.open_).head?
    high := maxQ (g.map Bar.high)
    low := minQ (g.map Bar.low)
    close := (g.map Bar.close).getLast?
    volume := (g.map Bar.volume).sum }

/-- `resample_to_weekly` (`src/docs/LLD.md`, lines 459-468):
`df.resample('W-FRI', on='timestamp').agg({...})` — pandas emits one row
per weekly bin from the first to the last occupied bin, each row
aggregating the daily bars whose timestamps fall in that bin. -/

def resample_to_weekly (bars : List Bar) : List WeeklyBar :=
  match bars.map (fun b => weekKey b.ts) with
  | [] => []
  | k :: ks =>
    let lo := ks.foldl min k
    let hi := ks.foldl max k
    (List.range (hi - lo + 1)).map fun j =>
      aggWeek (bars.filter (fun b => weekKey b.ts = lo + j))

/-- Concrete two-bar series lying inside one exchange week (days 0, 1). -/

def demoBars : List Bar :=
  [{ ts := 0, open_ := 10, high := 12, low := 9, close := 11, volume := 100 },
   { ts := 1, open_ := 11, high := 15, low := 10, close := 14, volume := 200 }]

/-- `close.pct_change()`: the first cell is missing, then
`cur/prev − 1` in float semantics (a zero previous close yields an
infinity, as in NumPy). -/

def pct_changeF (closes : List ℚ) : List FVal :=
  match closes with
  | [] => []
  | c :: cs =>
    FVal.nan :: List.zipWith (fun prev cur =>
      FVal.fsub (FVal.fdiv (FVal.fin cur) (FVal.fin prev)) (FVal.fin 1)) (c :: cs) cs

/-- The raw relative-strength ratio column of `compute_indicators`
(`src/docs/LLD.md`, lines 477-481):
`rs = (1 + stock_pct_change) / (1 + index_pct_change)`. -/

def rs_ratio (stockCloses indexCloses : List ℚ) : List FVal :=
  List.zipWith (fun s b => FVal.fdiv (FVal.fadd (FVal.fin 1) s) (FVal.fadd (FVal.fin 1) b))
    (pct_changeF stockCloses) (pct_changeF indexCloses)

/-- The smoothed relative-strength column:
`rs = rs.rolling(window=52).mean()`. -/

def rs_smoothed (stockCloses indexCloses : List ℚ) : List FVal :=
  rollingMeanF 52 (rs_ratio stockCloses indexCloses)

/-- A 54-week constant stock close series. -/

def cexStock : List ℚ := List.replicate 54 100

/-- A 54-week benchmark close series that is wiped out in the last week
(`bench_ret = −1` at index 53). -/

def cexBench : List ℚ := List.replicate 53 1 ++ [0]

/-- The per-sector top-movers ranking of the sector-heatmap route
(`src/docs/LLD.md`, lines 322-333): members `(symbol, percent change)`
sorted by percent change, descending (Python's stable `sorted`), then
truncated to the top 10. -/

def topMovers (members : List (String × ℚ)) : List (String × ℚ) :=
  (members.mergeSort (fun a b => decide (b.2 ≤ a.2))).take 10

/-- The ranking rule exactly as claim C9 states it, for comparison with
`topMovers`: by absolute percent change, descending, ties broken by
symbol lexical order. -/

def claimed_topMovers (members : List (String × ℚ)) : List (String × ℚ) :=
  (members.mergeSort (fun a b =>
    decide (|b.2| < |a.2| ∨ (|b.2| = |a.2| ∧ a.1 ≤ b.1)))).take 10

/-- The comparator of `handleSort` in
`src/frontend/src/components/Analysis.js` (lines 42-67): a row whose cell
for the sort key is null is ordered after the other row (`return 1` /
`return -1`) before any direction-dependent comparison; then string cells
are lowercased (`norm`) and compared with the JS `<` (`lt`), returning
±1 with the sign flipped for descending order. -/

def handleSortCompare {V : Type _} (asc : Bool) (norm : V → V) (lt : V → V → Bool)
    (a b : Option V) : Int :=
  match a, b with
  | none, _ => 1
  | some _, none => -1
  | some x, some y =>
    if lt (norm x) (norm y) then (if asc then -1 else 1)
    else if lt (norm y) (norm x) then (if asc then 1 else -1)
    else 0

/-- Insert a row into an already-sorted run: it goes before the first row
it does not compare strictly after (the comparator-driven placement of a
comparison sort). -/

def insertRow {R V : Type _} (asc : Bool) (norm : V → V) (lt : V → V → Bool)
    (get : R → Option V) (r : R) : List R → List R
  | [] => [r]
  | s :: rest =>
    if handleSortCompare asc norm lt (get r) (get s) ≤ 0 then r :: s :: rest
    else s :: insertRow asc norm lt get r rest

/-- `[...filteredData].sort(comparator)` of `handleSort`:
`Array.prototype.sort` modelled as the comparator-driven insertion sort. -/

def sortRows {R V : Type _} (asc : Bool) (norm : V → V) (lt : V → V → Bool)
    (get : R → Option V) (rows : List R) : List R :=
  rows.foldr (insertRow asc norm lt get) []

theorem getD_map_range {α : Type _} (n : ℕ) (f : ℕ → α) (d : α) (i : ℕ) :
    ((List.range n).map f).getD i d = if i < n then f i else d := by
  rcases lt_or_le i n with h | h
  · rw [List.getD_eq_getElem _ _ (by simpa using h)]
    simp [h]
  · rw [List.getD_eq_default _ _ (by simpa using h)]
    simp [Nat.not_lt.mpr h]

theorem stageOf_eq_stage2_iff (c : ℚ) (x y : Option ℚ) :
    stageOf c x y = Stage.stage2 ↔
      ∃ m p, x = some m ∧ y = some p ∧ m < c ∧ p < m := by
  rcases x with _ | m <;> rcases y with _ | p <;>
    simp only [stageOf, optGT, Bool.and_eq_true, decide_eq_true_eq] <;>
    split_ifs <;> simp_all <;> intro _ <;> linarith

theorem stageOf_eq_stage4_iff (c : ℚ) (x y : Option ℚ) :
    stageOf c x y = Stage.stage4 ↔
      ∃ m p, x = some m ∧ y = some p ∧ c < m ∧ m < p := by
  rcases x with _ | m <;> rcases y with _ | p <;>
    simp only [stageOf, optGT, Bool.and_eq_true, decide_eq_true_eq] <;>
    split_ifs <;> simp_all <;> intro _ <;> linarith

theorem stageOf_eq_unknown_iff (c : ℚ) (x y : Option ℚ) :
    stageOf c x y = Stage.unknown ↔
      ¬ (∃ m p, x = some m ∧ y = some p ∧ m < c ∧ p < m) ∧
      ¬ (∃ m p, x = some m ∧ y = some p ∧ c < m ∧ m < p) := by
  constructor
  · intro h
    constructor
    · rw [← stageOf_eq_stage2_iff c x y]
      intro h2
      rw [h] at h2
      exact Stage.noConfusion h2
    · rw [← stageOf_eq_stage4_iff c x y]
      intro h4
      rw [h] at h4
      exact Stage.noConfusion h4
  · intro ⟨h2, h4⟩
    rw [← stageOf_eq_stage2_iff c x y] at h2
    rw [← stageOf_eq_stage4_iff c x y] at h4
    cases hs : stageOf c x y
    · rfl
    · exact absurd hs h2
    · exact absurd hs h4

/-- **C1.** At every weekly index, the stage label is a pure function of
`(close, ma30, ma30_prev)` at that index: it is `Stage 2` iff
`close > ma30` and `ma30 > ma30_prev` (both moving-average cells present),
`Stage 4` iff `close < ma30` and `ma30 < ma30_prev`, and every other
combination — including a missing `ma30` or `ma30_prev` — yields
`'Unknown'`. -/

theorem stage_label_rule (closes : List ℚ) (i : Fin closes.length) :
    ((stageCol closes).getD i Stage.unknown = Stage.stage2 ↔
      ∃ m p, (ma30Col closes).getD i none = some m ∧
        (shift1 (ma30Col closes)).getD i none = some p ∧
        m < closes.get i ∧ p < m) ∧
    ((stageCol closes).getD i Stage.unknown = Stage.stage4 ↔
      ∃ m p, (ma30Col closes).getD i none = some m ∧
        (shift1 (ma30Col closes)).getD i none = some p ∧
        closes.get i < m ∧ m < p) ∧
    ((stageCol closes).getD i Stage.unknown = Stage.unknown ↔
      ¬ (∃ m p, (ma30Col closes).getD i none = some m ∧
          (shift1 (ma30Col closes)).getD i none = some p ∧
          m < closes.get i ∧ p < m) ∧
      ¬ (∃ m p, (ma30Col closes).getD i none = some m ∧
          (shift1 (ma30Col closes)).getD i none = some p ∧
          closes.get i < m ∧ m < p)) := by
  have hget : (stageCol closes).getD i Stage.unknown =
      stageOf (closes.getD i 0) ((ma30Col closes).getD i none)
        ((shift1 (ma30Col closes)).getD i none) := by
    rw [stageCol, getD_map_range, if_pos i.isLt]
  have hc : closes.getD (i : ℕ) 0 = closes.get i := by
    rw [List.getD_eq_getElem _ _ i.isLt]
    simp
  rw [hget, hc]
  exact ⟨stageOf_eq_stage2_iff _ _ _, stageOf_eq_stage4_iff _ _ _,
    stageOf_eq_unknown_iff _ _ _⟩

/-- **C2.** The Weinstein score is the sum of the subset of
{33.33, 33.33, 33.34} corresponding to the true conditions; the reported
(rounded) score always lies in {0, 33, 66, 67, 100}; and the all-true
case yields exactly 100. -/

theorem weinstein_score_values (r : WeeklyRow) :
    apply_filters r =
      (if condition_1 r then (33.33 : ℚ) else 0) +
      (if condition_2 r then (33.33 : ℚ) else 0) +
      (if condition_3 r then (33.34 : ℚ) else 0) ∧
    reported_score r ∈ ({0, 33, 66, 67, 100} : Set ℤ) ∧
    (condition_1 r = true → condition_2 r = true → condition_3 r = true →
      apply_filters r = 100 ∧ reported_score r = 100) := by
  cases h1 : condition_1 r <;> cases h2 : condition_2 r <;> cases h3 : condition_3 r <;>
    simp only [apply_filters, reported_score, h1, h2, h3, if_true, if_false,
      Bool.false_eq_true, Set.mem_insert_iff, Set.mem_singleton_iff] <;>
    norm_num [round_eq]

/-- Witness for C2: the spec scenario `close=110, ma30=100, high=112`,
stage `'Stage 2'` satisfies all three conditions and scores exactly 100. -/

theorem weinstein_score_values_witness :
    condition_1 ⟨110, 112, some 100, Stage.stage2⟩ = true ∧
    condition_2 ⟨110, 112, some 100, Stage.stage2⟩ = true ∧
    condition_3 ⟨110, 112, some 100, Stage.stage2⟩ = true ∧
    (apply_filters ⟨110, 112, some 100, Stage.stage2⟩ = 100 ∧
      reported_score ⟨110, 112, some 100, Stage.stage2⟩ = 100) :=
  ⟨by decide, by simp only [condition_2]; norm_num, by simp only [condition_3]; norm_num,
    (weinstein_score_values ⟨110, 112, some 100, Stage.stage2⟩).2.2
      (by decide) (by simp only [condition_2]; norm_num)
      (by simp only [condition_3]; norm_num)⟩

theorem getLast?_map_range {α : Type _} (n : ℕ) (f : ℕ → α) :
    ((List.range (n + 1)).map f).getLast? = some (f n) := by
  rw [List.getLast?_eq_getElem?]
  simp

theorem stageOf_none (c : ℚ) (y : Option ℚ) : stageOf c none y = Stage.unknown := by
  cases y <;> simp [stageOf, optGT]

/-- Counterexample to C3: a one-week series whose close equals its high.
`ma30` is missing at the latest week, yet `apply_filters` still evaluates
the low-resistance condition from `high`/`close` alone, so the score is
33.33, not 0. -/

theorem weeklyRows_singleton (c h : ℚ) :
    weeklyRows [(c, h)] = [{ close := c, high := h, ma30 := none, stage := Stage.unknown }] :=
  rfl

theorem weinstein_insufficient_history_cex :
    weinstein_latest [((100 : ℚ), (100 : ℚ))] =
      some { close := 100, high := 100, ma30 := none, stage := Stage.unknown } ∧
    ({ close := 100, high := 100, ma30 := none, stage := Stage.unknown } : WeeklyRow).ma30
      = none ∧
    condition_2 { close := 100, high := 100, ma30 := none, stage := Stage.unknown } = true ∧
    apply_filters { close := 100, high := 100, ma30 := none, stage := Stage.unknown }
      = 33.33 ∧
    (33.33 : ℚ) ≠ 0 := by
  refine ⟨?_, rfl, ?_, ?_, by norm_num⟩
  · rw [weinstein_latest, weeklyRows_singleton]
    rfl
  · simp only [condition_2]
    norm_num
  · have h2 : condition_2 { close := 100, high := 100, ma30 := none, stage := Stage.unknown }
        = true := by
      simp only [condition_2]
      norm_num
    simp [apply_filters, condition_1, condition_3, h2]

/-- **C3 (amended).** When `ma30` is missing at the latest week, the stage
condition and the overextension condition are false (NaN comparisons),
but the low-resistance condition is still evaluated from `high`/`close`,
so the score is 33.33 when that condition holds and 0 otherwise — it is
not unconditionally 0. -/

theorem weinstein_insufficient_history (weeks : List (ℚ × ℚ)) (r : WeeklyRow)
    (hlast : weinstein_latest weeks = some r) (hma : r.ma30 = none) :
    condition_1 r = false ∧ condition_3 r = false ∧
    apply_filters r = if condition_2 r then (33.33 : ℚ) else 0 := by
  rcases weeks with _ | ⟨w, ws⟩
  · simp [weinstein_latest, weeklyRows] at hlast
  · rw [weinstein_latest, weeklyRows] at hlast
    simp only [List.length_cons] at hlast
    rw [getLast?_map_range] at hlast
    have hr := (Option.some.injEq _ _).mp hlast
    have hstage : r.stage = Stage.unknown := by
      have hm : ((ma30Col ((w :: ws).map Prod.fst)).getD ws.length none) = r.ma30 := by
        rw [← hr]
      rw [← hr]
      simp only
      rw [hm, hma, stageOf_none]
    have h1 : condition_1 r = false := by
      simp [condition_1, hstage]
    have h3 : condition_3 r = false := by
      simp [condition_3, hma]
    refine ⟨h1, h3, ?_⟩
    simp only [apply_filters, h1, h3, Bool.false_eq_true, if_false]
    cases condition_2 r <;> simp

/-- Witness for amended C3: a one-week series with close far from its
high; `ma30` is missing, all three conditions fail, score 0. -/

theorem weinstein_insufficient_history_witness :
    weinstein_latest [((50 : ℚ), (100 : ℚ))] =
      some { close := 50, high := 100, ma30 := none, stage := Stage.unknown } ∧
    (condition_1 { close := 50, high := 100, ma30 := none, stage := Stage.unknown } = false ∧
     condition_3 { close := 50, high := 100, ma30 := none, stage := Stage.unknown } = false ∧
     apply_filters { close := 50, high := 100, ma30 := none, stage := Stage.unknown }
       = if condition_2 { close := 50, high := 100, ma30 := none, stage := Stage.unknown }
         then (33.33 : ℚ) else 0) :=
  ⟨by rw [weinstein_latest, weeklyRows_singleton]; rfl,
    weinstein_insufficient_history [((50 : ℚ), (100 : ℚ))]
      { close := 50, high := 100, ma30 := none, stage := Stage.unknown }
      (by rw [weinstein_latest, weeklyRows_singleton]; rfl) rfl⟩

/-- Counterexample to C4: for period 21 and the two-price series
`[100, 110]`, the claim demands both cells undefined (indices `< 20`),
but `calculate_ema` produces computed values at both, starting from the
first close. -/

theorem ema_warmup_cex :
    claimed_ema 21 [100, 110] = [none, none] ∧
    calculate_ema 21 [100, 110] = [100, 1110 / 11] ∧
    (calculate_ema 21 [100, 110]).getD 0 0 = 100 ∧
    List.map some (calculate_ema 21 [100, 110]) ≠ claimed_ema 21 [100, 110] := by
  have h1 : claimed_ema 21 [100, 110] = [none, none] := rfl
  have h2 : calculate_ema 21 [100, 110] = [100, 1110 / 11] := by
    simp only [calculate_ema, List.scanl, emaStep]
    norm_num
  refine ⟨h1, h2, by rw [h2]; rfl, ?_⟩
  rw [h1, h2]
  simp

theorem scanl_getD_zero {α β : Type _} (f : β → α → β) (b : β) (l : List α) (d : β) :
    (List.scanl f b l).getD 0 d = b := by
  cases l <;> rfl

theorem scanl_getD_succ {α β : Type _} (f : β → α → β) (d : β) :
    ∀ (l : List α) (b : β) (i : Fin l.length),
      (List.scanl f b l).getD (i.val + 1) d =
        f ((List.scanl f b l).getD i.val d) (l.get i)
  | [], _, i => absurd i.isLt (by simp)
  | a :: l, b, i => by
    rw [List.scanl_cons, List.singleton_append]
    rcases i with ⟨iv, hi⟩
    cases iv with
    | zero =>
      simp [scanl_getD_zero]
    | succ j =>
      have hj : j < l.length := by simpa using hi
      have ih := scanl_getD_succ f d l (f b a) ⟨j, hj⟩
      simp only [List.getD_cons_succ, List.get_cons_succ]
      exact ih

/-- **C4 (amended).** `calculate_ema` is defined at every index of a
nonempty series: the output has the same length as the input, the value
at index 0 is the first close (the seed is the first price, not a simple
average of the first `period` closes), and each later value follows from
the previous one by one smoothing step with multiplier `2/(period+1)`;
there is no undefined warm-up segment. -/

theorem ema_recursion (period : ℕ) (p : ℚ) (ps : List ℚ) :
    (calculate_ema period (p :: ps)).length = (p :: ps).length ∧
    (calculate_ema period (p :: ps)).getD 0 0 = p ∧
    ∀ i : Fin ps.length,
      (calculate_ema period (p :: ps)).getD (i.val + 1) 0 =
        emaStep period ((calculate_ema period (p :: ps)).getD i.val 0) (ps.get i) :=
  ⟨by simp [calculate_ema, List.length_scanl],
   scanl_getD_zero _ _ _ _,
   fun i => scanl_getD_succ (emaStep period) 0 ps p i⟩

theorem rollingMeanF_getD (w : ℕ) (xs : List FVal) (i : ℕ) :
    (rollingMeanF w xs).getD i FVal.nan =
      if i < xs.length ∧ w ≤ i + 1 then
        (if ((xs.drop (i + 1 - w)).take w).any FVal.isNan then FVal.nan
         else FVal.fdiv (((xs.drop (i + 1 - w)).take w).foldl FVal.fadd (FVal.fin 0))
            (FVal.fin w))
      else FVal.nan := by
  rw [rollingMeanF, getD_map_range]
  by_cases h1 : i < xs.length <;> by_cases h2 : w ≤ i + 1 <;>
    simp [h1, h2]

theorem zip_diff_mem : ∀ (l1 l2 : List ℚ) (x : FVal),
    x ∈ List.zipWith (fun prev cur => FVal.fin (cur - prev)) l1 l2 → ∃ q, x = FVal.fin q
  | [], _, x, h => absurd h (by simp)
  | _ :: _, [], x, h => absurd h (by simp)
  | a :: l1, b :: l2, x, h => by
    rw [List.zipWith_cons_cons] at h
    rcases List.mem_cons.mp h with h | h
    · exact ⟨b - a, h⟩
    · exact zip_diff_mem l1 l2 x h

theorem diffF_mem (prices : List ℚ) (d : FVal) (hd : d ∈ diffF prices) :
    d = FVal.nan ∨ ∃ q, d = FVal.fin q := by
  cases prices with
  | nil => simp [diffF] at hd
  | cons p ps =>
    rw [diffF] at hd
    rcases List.mem_cons.mp hd with h | h
    · exact Or.inl h
    · exact Or.inr (zip_diff_mem _ _ _ h)

theorem gainsF_diff_fin (prices : List ℚ) (x : FVal) (hx : x ∈ gainsF (diffF prices)) :
    ∃ q, 0 ≤ q ∧ x = FVal.fin q := by
  rw [gainsF, List.mem_map] at hx
  obtain ⟨d, hd, rfl⟩ := hx
  rcases diffF_mem prices d hd with rfl | ⟨q, rfl⟩
  · exact ⟨0, le_refl 0, rfl⟩
  · by_cases hq : 0 < q
    · exact ⟨q, le_of_lt hq, by simp [FVal.fgt, FVal.flt, hq]⟩
    · exact ⟨0, le_refl 0, by simp [FVal.fgt, FVal.flt, hq]⟩

theorem lossesF_diff_fin (prices : List ℚ) (x : FVal) (hx : x ∈ lossesF (diffF prices)) :
    ∃ q, 0 ≤ q ∧ x = FVal.fin q := by
  rw [lossesF, List.mem_map] at hx
  obtain ⟨d, hd, rfl⟩ := hx
  rcases diffF_mem prices d hd with rfl | ⟨q, rfl⟩
  · exact ⟨0, le_refl 0, by simp [FVal.flt, FVal.fneg]⟩
  · by_cases hq : q < 0
    · exact ⟨-q, by linarith, by simp [FVal.flt, FVal.fneg, hq]⟩
    · exact ⟨0, le_refl 0, by simp [FVal.flt, FVal.fneg, hq]⟩

theorem foldl_fadd_fin : ∀ (l : List FVal) (a : ℚ),
    (∀ x ∈ l, ∃ q, 0 ≤ q ∧ x = FVal.fin q) →
    ∃ s, 0 ≤ s ∧ List.foldl FVal.fadd (FVal.fin a) l = FVal.fin (a + s)
  | [], a, _ => ⟨0, le_refl 0, by simp⟩
  | x :: l, a, h => by
    obtain ⟨q, hq, rfl⟩ := h x (List.mem_cons_self x l)
    obtain ⟨s, hs, hfold⟩ :=
      foldl_fadd_fin l (a + q) (fun y hy => h y (List.mem_cons_of_mem _ hy))
    refine ⟨q + s, by linarith, ?_⟩
    rw [List.foldl_cons]
    show List.foldl FVal.fadd (FVal.fin (a + q)) l = _
    rw [hfold]
    exact congrArg FVal.fin (by ring)

theorem any_isNan_eq_false (l : List FVal)
    (h : ∀ x ∈ l, ∃ q, 0 ≤ q ∧ x = FVal.fin q) : l.any FVal.isNan = false := by
  rw [List.any_eq_false]
  intro x hx
  obtain ⟨q, _, rfl⟩ := h x hx
  simp [FVal.isNan]

theorem rollingMeanF_fin_nonneg (w : ℕ) (hw : 0 < w) (xs : List FVal)
    (hxs : ∀ x ∈ xs, ∃ q, 0 ≤ q ∧ x = FVal.fin q) (i : ℕ)
    (hi : i < xs.length) (hiw : w ≤ i + 1) :
    ∃ q, 0 ≤ q ∧ (rollingMeanF w xs).getD i FVal.nan = FVal.fin q := by
  rw [rollingMeanF_getD, if_pos ⟨hi, hiw⟩]
  have hwmem : ∀ x ∈ (xs.drop (i + 1 - w)).take w, ∃ q, 0 ≤ q ∧ x = FVal.fin q :=
    fun x hx => hxs x (List.mem_of_mem_drop (List.mem_of_mem_take hx))
  rw [any_isNan_eq_false _ hwmem]
  obtain ⟨s, hs, hfold⟩ := foldl_fadd_fin _ 0 hwmem
  rw [hfold]
  have hwq : ((w : ℚ)) ≠ 0 := by positivity
  refine ⟨(0 + s) / w, by positivity, ?_⟩
  simp [FVal.fdiv, hwq]

theorem getD_map_of_lt {α β : Type _} (f : α → β) (l : List α) (i : ℕ)
    (hi : i < l.length) (d : β) (e : α) :
    (l.map f).getD i d = f (l.getD i e) := by
  rw [List.getD_eq_getElem _ _ (by simpa using hi), List.getD_eq_getElem _ _ hi,
    List.getElem_map]

theorem getD_zipWith_of_lt {α β γ : Type _} (f : α → β → γ) (l1 : List α) (l2 : List β)
    (i : ℕ) (h1 : i < l1.length) (h2 : i < l2.length) (d : γ) (d1 : α) (d2 : β) :
    (List.zipWith f l1 l2).getD i d = f (l1.getD i d1) (l2.getD i d2) := by
  have hlen : i < (List.zipWith f l1 l2).length := by
    rw [List.length_zipWith]
    omega
  rw [List.getD_eq_getElem _ _ hlen, List.getD_eq_getElem _ _ h1,
    List.getD_eq_getElem _ _ h2, List.getElem_zipWith]

theorem length_diffF (prices : List ℚ) : (diffF prices).length = prices.length := by
  cases prices with
  | nil => rfl
  | cons p ps => simp [diffF, List.length_zipWith]

theorem length_avg_gain (period : ℕ) (prices : List ℚ) :
    (avg_gain period prices).length = prices.length := by
  simp [avg_gain, rollingMeanF, gainsF, length_diffF]

theorem length_avg_loss (period : ℕ) (prices : List ℚ) :
    (avg_loss period prices).length = prices.length := by
  simp [avg_loss, rollingMeanF, lossesF, length_diffF]

theorem calculate_rsi_getD (period : ℕ) (prices : List ℚ) (i : ℕ)
    (hi : i < prices.length) :
    (calculate_rsi period prices).getD i FVal.nan =
      FVal.fsub (FVal.fin 100) (FVal.fdiv (FVal.fin 100) (FVal.fadd (FVal.fin 1)
        (FVal.fdiv ((avg_gain period prices).getD i FVal.nan)
          ((avg_loss period prices).getD i FVal.nan)))) := by
  rw [calculate_rsi]
  rw [getD_map_of_lt _ _ i (by rw [List.length_zipWith, length_avg_gain, length_avg_loss]; omega)
    FVal.nan FVal.nan]
  rw [getD_zipWith_of_lt _ _ _ i (by rw [length_avg_gain]; omega)
    (by rw [length_avg_loss]; omega) FVal.nan FVal.nan FVal.nan]

theorem zipWith_diff_replicate (c : ℚ) : ∀ n : ℕ,
    List.zipWith (fun prev cur => FVal.fin (cur - prev))
      (List.replicate (n + 1) c) (List.replicate n c) =
      List.replicate n (FVal.fin 0)
  | 0 => by simp
  | n + 1 => by
    rw [List.replicate_succ c (n + 1), List.replicate_succ c n,
      List.zipWith_cons_cons, ← List.replicate_succ c n, zipWith_diff_replicate c n]
    rw [List.replicate_succ]
    congr 1
    exact congrArg FVal.fin (sub_self c)

theorem diffF_replicate (n : ℕ) (c : ℚ) :
    diffF (List.replicate (n + 1) c) = FVal.nan :: List.replicate n (FVal.fin 0) := by
  rw [List.replicate_succ, diffF, ← List.replicate_succ, zipWith_diff_replicate]

theorem gainsF_replicate (n : ℕ) (c : ℚ) :
    gainsF (diffF (List.replicate (n + 1) c)) = List.replicate (n + 1) (FVal.fin 0) := by
  rw [diffF_replicate, gainsF, List.map_cons, List.map_replicate, List.replicate_succ]
  simp [FVal.fgt, FVal.flt]

theorem lossesF_replicate (n : ℕ) (c : ℚ) :
    lossesF (diffF (List.replicate (n + 1) c)) = List.replicate (n + 1) (FVal.fin 0) := by
  rw [diffF_replicate, lossesF, List.map_cons, List.map_replicate, List.replicate_succ]
  simp [FVal.flt, FVal.fneg]

theorem foldl_fadd_replicate_zero : ∀ (k : ℕ) (a : ℚ),
    List.foldl FVal.fadd (FVal.fin a) (List.replicate k (FVal.fin 0)) = FVal.fin a
  | 0, a => rfl
  | k + 1, a => by
    rw [List.replicate_succ, List.foldl_cons]
    show List.foldl FVal.fadd (FVal.fin (a + 0)) _ = _
    rw [foldl_fadd_replicate_zero k (a + 0), add_zero]

theorem rollingMeanF_replicate_zero (w : ℕ) (hw : 0 < w) (m : ℕ) (j : ℕ) (hj : j < m) :
    (rollingMeanF w (List.replicate m (FVal.fin 0))).getD j FVal.nan =
      if w ≤ j + 1 then FVal.fin 0 else FVal.nan := by
  rw [rollingMeanF_getD]
  simp only [List.length_replicate]
  by_cases hwj : w ≤ j + 1
  · rw [if_pos ⟨hj, hwj⟩, if_pos hwj]
    rw [List.drop_replicate, List.take_replicate]
    rw [any_isNan_eq_false _ (fun x hx => ⟨0, le_refl 0, List.eq_of_mem_replicate hx⟩)]
    rw [foldl_fadd_replicate_zero]
    have hwq : ((w : ℚ)) ≠ 0 := by positivity
    simp [FVal.fdiv, hwq]
  · rw [if_neg (fun h => hwj h.2), if_neg hwj]

theorem avg_gain_replicate (n : ℕ) (c : ℚ) (j : ℕ) (hj : j < n) :
    (avg_gain 14 (List.replicate n c)).getD j FVal.nan =
      if 14 ≤ j + 1 then FVal.fin 0 else FVal.nan := by
  cases n with
  | zero => omega
  | succ m =>
    simp only [avg_gain]
    rw [gainsF_replicate]
    exact rollingMeanF_replicate_zero 14 (by norm_num) (m + 1) j hj

theorem avg_loss_replicate (n : ℕ) (c : ℚ) (j : ℕ) (hj : j < n) :
    (avg_loss 14 (List.replicate n c)).getD j FVal.nan =
      if 14 ≤ j + 1 then FVal.fin 0 else FVal.nan := by
  cases n with
  | zero => omega
  | succ m =>
    simp only [avg_loss]
    rw [lossesF_replicate]
    exact rollingMeanF_replicate_zero 14 (by norm_num) (m + 1) j hj

theorem rsi_replicate_nan (n : ℕ) (c : ℚ) (j : ℕ) (hj : j < n) :
    (calculate_rsi 14 (List.replicate n c)).getD j FVal.nan = FVal.nan := by
  rw [calculate_rsi_getD 14 _ j (by simpa using hj)]
  rw [avg_gain_replicate n c j hj, avg_loss_replicate n c j hj]
  by_cases hwj : 14 ≤ j + 1
  · rw [if_pos hwj]
    simp [FVal.fdiv, FVal.fadd, FVal.fsub, FVal.fneg]
  · rw [if_neg hwj]
    simp [FVal.fdiv, FVal.fadd, FVal.fsub, FVal.fneg]

/-- Counterexample to C5: on the constant 14-price series (average loss
over the 14-window is 0, no price decreases), `calculate_rsi` produces a
missing value (NaN from `0/0`), not 100. -/

theorem rsi_zero_loss_cex :
    (avg_loss 14 (List.replicate 14 (100 : ℚ))).getD 13 FVal.nan = FVal.fin 0 ∧
    (calculate_rsi 14 (List.replicate 14 (100 : ℚ))).getD 13 FVal.nan = FVal.nan ∧
    FVal.nan ≠ FVal.fin 100 := by
  refine ⟨?_, rsi_replicate_nan 14 100 13 (by norm_num), by simp⟩
  rw [avg_loss_replicate 14 100 13 (by norm_num)]
  norm_num

/-- **C5 (amended).** When the 14-period average loss at an index is 0,
`calculate_rsi` evaluates to 100 provided the average gain is nonzero
(the float division produces `+inf`, and `100 − 100/(1+inf) = 100`)
without any division fault; when the average gain is also 0 — in
particular on every constant-price series — the RSI is a missing value
(NaN), never an error. -/

theorem rsi_zero_loss (period : ℕ) (hp : 0 < period) (prices : List ℚ) (i : ℕ)
    (hl : (avg_loss period prices).getD i FVal.nan = FVal.fin 0) :
    ((avg_gain period prices).getD i FVal.nan = FVal.fin 0 →
      (calculate_rsi period prices).getD i FVal.nan = FVal.nan) ∧
    ((avg_gain period prices).getD i FVal.nan ≠ FVal.fin 0 →
      (calculate_rsi period prices).getD i FVal.nan = FVal.fin 100) ∧
    ∀ (n : ℕ) (c : ℚ) (j : ℕ), j < n →
      (calculate_rsi 14 (List.replicate n c)).getD j FVal.nan = FVal.nan := by
  have hbounds : i < prices.length ∧ period ≤ i + 1 := by
    by_contra hcon
    simp only [avg_loss] at hl
    rw [rollingMeanF_getD] at hl
    rw [if_neg] at hl
    · exact FVal.noConfusion hl
    · intro h
      apply hcon
      refine ⟨?_, h.2⟩
      have := h.1
      rwa [lossesF, List.length_map, length_diffF] at this
  refine ⟨?_, ?_, rsi_replicate_nan⟩
  · intro hg
    rw [calculate_rsi_getD period prices i hbounds.1, hg, hl]
    simp [FVal.fdiv, FVal.fadd, FVal.fsub, FVal.fneg]
  · intro hg
    obtain ⟨g, hg0, hgeq⟩ := rollingMeanF_fin_nonneg period hp (gainsF (diffF prices))
      (gainsF_diff_fin prices) i
      (by rw [gainsF, List.length_map, length_diffF]; exact hbounds.1) hbounds.2
    have hgeq2 : (avg_gain period prices).getD i FVal.nan = FVal.fin g := hgeq
    have hgne : g ≠ 0 := by
      intro h
      rw [h] at hgeq2
      exact hg hgeq2
    have hgpos : 0 < g := lt_of_le_of_ne hg0 (Ne.symm hgne)
    rw [calculate_rsi_getD period prices i hbounds.1, hgeq2, hl]
    rw [show FVal.fdiv (FVal.fin g) (FVal.fin 0) = FVal.inf by
      simp [FVal.fdiv, hgne, hgpos]]
    simp [FVal.fadd, FVal.fdiv, FVal.fsub, FVal.fneg]

/-- Witness for amended C5: the constant 14-price series satisfies the
zero-average-loss hypothesis, and its RSI cell is NaN (average gain 0). -/

theorem rsi_zero_loss_witness :
    (0 < 14 ∧ (avg_loss 14 (List.replicate 14 (100 : ℚ))).getD 13 FVal.nan = FVal.fin 0) ∧
    (((avg_gain 14 (List.replicate 14 (100 : ℚ))).getD 13 FVal.nan = FVal.fin 0 →
      (calculate_rsi 14 (List.replicate 14 (100 : ℚ))).getD 13 FVal.nan = FVal.nan) ∧
     ((avg_gain 14 (List.replicate 14 (100 : ℚ))).getD 13 FVal.nan ≠ FVal.fin 0 →
      (calculate_rsi 14 (List.replicate 14 (100 : ℚ))).getD 13 FVal.nan = FVal.fin 100) ∧
     ∀ (n : ℕ) (c : ℚ) (j : ℕ), j < n →
      (calculate_rsi 14 (List.replicate n c)).getD j FVal.nan = FVal.nan) :=
  have hl : (avg_loss 14 (List.replicate 14 (100 : ℚ))).getD 13 FVal.nan = FVal.fin 0 := by
    rw [avg_loss_replicate 14 100 13 (by norm_num)]
    norm_num
  ⟨⟨by norm_num, hl⟩, rsi_zero_loss 14 (by norm_num) (List.replicate 14 (100 : ℚ)) 13 hl⟩

/-- **C6.** The confidence total is the sum of the four independent binary
components (RSI in the 30-70 band, MACD above signal, EMA21 above EMA44,
close above EMA200, each worth 25; a missing RSI contributes 0), so it is
always exactly one of {0, 25, 50, 75, 100}. -/

theorem confidence_total_values (d : DailyIndicators) :
    confidence_total d =
      rsi_component d + macd_component d + ema_cross_component d + ema200_component d ∧
    (d.rsi = none → rsi_component d = 0) ∧
    confidence_total d ∈ ({0, 25, 50, 75, 100} : Set ℕ) := by
  have h1 : rsi_component d = 0 ∨ rsi_component d = 25 := by
    rw [rsi_component]
    rcases d.rsi with _ | x
    · exact Or.inl rfl
    · dsimp only
      split_ifs
      · exact Or.inr rfl
      · exact Or.inl rfl
  have h2 : macd_component d = 0 ∨ macd_component d = 25 := by
    rw [macd_component]
    split_ifs
    · exact Or.inr rfl
    · exact Or.inl rfl
  have h3 : ema_cross_component d = 0 ∨ ema_cross_component d = 25 := by
    rw [ema_cross_component]
    split_ifs
    · exact Or.inr rfl
    · exact Or.inl rfl
  have h4 : ema200_component d = 0 ∨ ema200_component d = 25 := by
    rw [ema200_component]
    split_ifs
    · exact Or.inr rfl
    · exact Or.inl rfl
  refine ⟨rfl, ?_, ?_⟩
  · intro h
    rw [rsi_component, h]
  · rw [confidence_total]
    rcases h1 with h1 | h1 <;> rcases h2 with h2 | h2 <;> rcases h3 with h3 | h3 <;>
      rcases h4 with h4 | h4 <;> rw [h1, h2, h3, h4] <;> norm_num

/-- Witness for C6: a row with missing RSI, bullish MACD, EMA21 above
EMA44 and close above EMA200 scores 0 + 25 + 25 + 25 = 75. -/

theorem confidence_total_values_witness :
    rsi_component ⟨none, 1, 0, 2, 1, 0, 5⟩ = 0 ∧
    confidence_total ⟨none, 1, 0, 2, 1, 0, 5⟩ ∈ ({0, 25, 50, 75, 100} : Set ℕ) :=
  ⟨(confidence_total_values ⟨none, 1, 0, 2, 1, 0, 5⟩).2.1 rfl,
   (confidence_total_values ⟨none, 1, 0, 2, 1, 0, 5⟩).2.2⟩

theorem foldl_max_le : ∀ (xs : List ℚ) (x y : ℚ), y ∈ x :: xs → y ≤ xs.foldl max x
  | [], x, y, hy => by
    rcases List.mem_cons.mp hy with rfl | hy
    · exact le_refl y
    · exact absurd hy (by simp)
  | z :: zs, x, y, hy => by
    rw [List.foldl_cons]
    rcases List.mem_cons.mp hy with rfl | hy
    · exact le_trans (le_max_left y z)
        (foldl_max_le zs (max y z) (max y z) (List.mem_cons_self _ _))
    · rcases List.mem_cons.mp hy with rfl | hy
      · exact le_trans (le_max_right x y)
          (foldl_max_le zs (max x y) (max x y) (List.mem_cons_self _ _))
      · exact foldl_max_le zs (max x z) y (List.mem_cons_of_mem _ hy)

theorem foldl_max_mem : ∀ (xs : List ℚ) (x : ℚ), xs.foldl max x ∈ x :: xs
  | [], x => List.mem_cons_self x []
  | z :: zs, x => by
    rw [List.foldl_cons]
    have h := foldl_max_mem zs (max x z)
    rcases List.mem_cons.mp h with h | h
    · rcases max_choice x z with hc | hc <;> rw [h, hc]
      · exact List.mem_cons_self _ _
      · exact List.mem_cons_of_mem _ (List.mem_cons_self _ _)
    · exact List.mem_cons_of_mem _ (List.mem_cons_of_mem _ h)

theorem foldl_min_ge : ∀ (xs : List ℚ) (x y : ℚ), y ∈ x :: xs → xs.foldl min x ≤ y
  | [], x, y, hy => by
    rcases List.mem_cons.mp hy with rfl | hy
    · exact le_refl y
    · exact absurd hy (by simp)
  | z :: zs, x, y, hy => by
    rw [List.foldl_cons]
    rcases List.mem_cons.mp hy with rfl | hy
    · exact le_trans
        (foldl_min_ge zs (min y z) (min y z) (List.mem_cons_self _ _)) (min_le_left y z)
    · rcases List.mem_cons.mp hy with rfl | hy
      · exact le_trans
          (foldl_min_ge zs (min x y) (min x y) (List.mem_cons_self _ _)) (min_le_right x y)
      · exact foldl_min_ge zs (min x z) y (List.mem_cons_of_mem _ hy)

theorem foldl_min_mem : ∀ (xs : List ℚ) (x : ℚ), xs.foldl min x ∈ x :: xs
  | [], x => List.mem_cons_self x []
  | z :: zs, x => by
    rw [List.foldl_cons]
    have h := foldl_min_mem zs (min x z)
    rcases List.mem_cons.mp h with h | h
    · rcases min_choice x z with hc | hc <;> rw [h, hc]
      · exact List.mem_cons_self _ _
      · exact List.mem_cons_of_mem _ (List.mem_cons_self _ _)
    · exact List.mem_cons_of_mem _ (List.mem_cons_of_mem _ h)

theorem foldl_min_const (k : ℕ) : ∀ (ks : List ℕ), (∀ x ∈ ks, x = k) → ks.foldl min k = k
  | [], _ => rfl
  | z :: zs, h => by
    rw [List.foldl_cons, h z (List.mem_cons_self _ _), min_self]
    exact foldl_min_const k zs (fun x hx => h x (List.mem_cons_of_mem _ hx))

theorem foldl_max_const (k : ℕ) : ∀ (ks : List ℕ), (∀ x ∈ ks, x = k) → ks.foldl max k = k
  | [], _ => rfl
  | z :: zs, h => by
    rw [List.foldl_cons, h z (List.mem_cons_self _ _), max_self]
    exact foldl_max_const k zs (fun x hx => h x (List.mem_cons_of_mem _ hx))

/-- **C7.** A nonempty daily series whose bars all fall in one exchange
week resamples to exactly one weekly bar: its open is the first daily
open, its close the last daily close, its volume the sum of the daily
volumes, its high the maximum daily high and its low the minimum daily
low; no empty weekly bin is emitted. -/

theorem resample_single_week (bars : List Bar) (hne : bars ≠ [])
    (hweek : ∀ b ∈ bars, weekKey b.ts = weekKey ((bars.head hne).ts)) :
    resample_to_weekly bars = [aggWeek bars] ∧
    (aggWeek bars).open_ = some ((bars.head hne).open_) ∧
    (aggWeek bars).close = some ((bars.getLast hne).close) ∧
    (aggWeek bars).volume = (bars.map Bar.volume).sum ∧
    (∃ hm, (aggWeek bars).high = some hm ∧ hm ∈ bars.map Bar.high ∧
      ∀ x ∈ bars.map Bar.high, x ≤ hm) ∧
    (∃ lm, (aggWeek bars).low = some lm ∧ lm ∈ bars.map Bar.low ∧
      ∀ x ∈ bars.map Bar.low, lm ≤ x) := by
  rcases bars with _ | ⟨b, bs⟩
  · exact absurd rfl hne
  have hk : ∀ x ∈ (b :: bs).map (fun c => weekKey c.ts), x = weekKey b.ts := by
    intro x hx
    rw [List.mem_map] at hx
    obtain ⟨c, hc, rfl⟩ := hx
    exact hweek c hc
  refine ⟨?_, rfl, ?_, rfl, ?_, ?_⟩
  · rw [resample_to_weekly]
    simp only [List.map_cons]
    have hlo : (bs.map (fun c => weekKey c.ts)).foldl min (weekKey b.ts) = weekKey b.ts :=
      foldl_min_const _ _ (fun x hx => hk x (List.mem_cons_of_mem _ hx))
    have hhi : (bs.map (fun c => weekKey c.ts)).foldl max (weekKey b.ts) = weekKey b.ts :=
      foldl_max_const _ _ (fun x hx => hk x (List.mem_cons_of_mem _ hx))
    rw [hlo, hhi, Nat.sub_self]
    simp only [List.range_succ, List.range_zero, List.nil_append, List.map_cons, List.map_nil]
    congr 1
    exact congrArg aggWeek (List.filter_eq_self.mpr
      (fun c hc => by simpa using (hweek c hc).trans (Nat.add_zero _).symm))
  · show ((b :: bs).map Bar.close).getLast? = _
    rw [List.getLast?_map, List.getLast?_eq_getLast _ hne]
    rfl
  · refine ⟨(((b :: bs).map Bar.high).tail).foldl max b.high, rfl, ?_, ?_⟩
    · simpa using foldl_max_mem (bs.map Bar.high) b.high
    · intro x hx
      exact foldl_max_le (bs.map Bar.high) b.high x (by simpa using hx)
  · refine ⟨(((b :: bs).map Bar.low).tail).foldl min b.low, rfl, ?_, ?_⟩
    · simpa using foldl_min_mem (bs.map Bar.low) b.low
    · intro x hx
      exact foldl_min_ge (bs.map Bar.low) b.low x (by simpa using hx)

/-- Witness for C7: resampling the one-week two-bar series yields exactly
one aggregated weekly bar. -/

theorem resample_single_week_witness :
    resample_to_weekly demoBars = [aggWeek demoBars] ∧
    (aggWeek demoBars).volume = (demoBars.map Bar.volume).sum := by
  have h := resample_single_week demoBars (by simp [demoBars])
    (by
      intro b hb
      rcases List.mem_cons.mp hb with rfl | hb
      · rfl
      · rcases List.mem_cons.mp hb with rfl | hb
        · rfl
        · exact absurd hb (by simp))
  exact ⟨h.1, h.2.2.2.1⟩

theorem zipWith_replicate_succ {α β γ : Type _} (f : α → β → γ) (c : α) (d : β) :
    ∀ k, List.zipWith f (List.replicate (k + 1) c) (List.replicate k d) =
      List.replicate k (f c d)
  | 0 => by simp
  | k + 1 => by
    rw [List.replicate_succ c (k + 1), List.replicate_succ d k, List.zipWith_cons_cons,
      zipWith_replicate_succ f c d k, List.replicate_succ]

theorem foldl_fadd_from_inf : ∀ (l : List FVal),
    (∀ x ∈ l, x = FVal.inf ∨ ∃ q, x = FVal.fin q) →
    List.foldl FVal.fadd FVal.inf l = FVal.inf
  | [], _ => rfl
  | x :: l, h => by
    rw [List.foldl_cons]
    rcases h x (List.mem_cons_self _ _) with rfl | ⟨q, rfl⟩
    · exact foldl_fadd_from_inf l (fun y hy => h y (List.mem_cons_of_mem _ hy))
    · exact foldl_fadd_from_inf l (fun y hy => h y (List.mem_cons_of_mem _ hy))

theorem foldl_fadd_with_inf : ∀ (l : List FVal) (a : ℚ),
    (∀ x ∈ l, x = FVal.inf ∨ ∃ q, x = FVal.fin q) → FVal.inf ∈ l →
    List.foldl FVal.fadd (FVal.fin a) l = FVal.inf
  | [], a, _, hmem => absurd hmem (by simp)
  | x :: l, a, h, hmem => by
    rw [List.foldl_cons]
    rcases h x (List.mem_cons_self _ _) with rfl | ⟨q, rfl⟩
    · exact foldl_fadd_from_inf l (fun y hy => h y (List.mem_cons_of_mem _ hy))
    · have hmem2 : FVal.inf ∈ l := by
        rcases List.mem_cons.mp hmem with heq | hmem2
        · exact absurd heq (by simp)
        · exact hmem2
      exact foldl_fadd_with_inf l (a + q) (fun y hy => h y (List.mem_cons_of_mem _ hy)) hmem2

theorem zipWith_replicate_eq {α β γ : Type _} (f : α → β → γ) (a : α) (b : β) :
    ∀ k, List.zipWith f (List.replicate k a) (List.replicate k b) =
      List.replicate k (f a b)
  | 0 => rfl
  | k + 1 => by
    rw [List.replicate_succ a k, List.replicate_succ b k, List.zipWith_cons_cons,
      zipWith_replicate_eq f a b k, List.replicate_succ]

theorem pct_cexStock :
    pct_changeF cexStock = FVal.nan :: List.replicate 53 (FVal.fin 0) := by
  rw [cexStock, show (54 : ℕ) = 53 + 1 from rfl, List.replicate_succ, pct_changeF]
  rw [← List.replicate_succ, zipWith_replicate_succ]
  congr 1
  rw [show FVal.fsub (FVal.fdiv (FVal.fin 100) (FVal.fin 100)) (FVal.fin 1) =
    FVal.fin (100 / 100 + -1) by norm_num [FVal.fsub, FVal.fdiv, FVal.fadd, FVal.fneg]]
  norm_num

theorem pct_cexBench :
    pct_changeF cexBench =
      FVal.nan :: (List.replicate 52 (FVal.fin 0) ++ [FVal.fin (-1)]) := by
  rw [cexBench, show (53 : ℕ) = 52 + 1 from rfl, List.replicate_succ, List.cons_append,
    pct_changeF]
  congr 1
  rw [show (1 : ℚ) :: (List.replicate 52 (1 : ℚ) ++ [0]) =
      (List.replicate 52 (1 : ℚ) ++ [1, 0]) by
    rw [← List.cons_append, ← List.replicate_succ, List.replicate_succ' 52 (1 : ℚ),
      List.append_assoc]
    rfl]
  rw [List.zipWith_append _ _ _ _ _ (by simp), zipWith_replicate_eq]
  congr 1
  · congr 1
    norm_num [FVal.fsub, FVal.fdiv, FVal.fadd, FVal.fneg]
  · show [FVal.fsub (FVal.fdiv (FVal.fin 0) (FVal.fin 1)) (FVal.fin 1)] = _
    norm_num [FVal.fsub, FVal.fdiv, FVal.fadd, FVal.fneg]

theorem ratio_cex :
    rs_ratio cexStock cexBench =
      FVal.nan :: (List.replicate 52 (FVal.fin 1) ++ [FVal.inf]) := by
  rw [rs_ratio, pct_cexStock, pct_cexBench, List.zipWith_cons_cons]
  congr 1
  rw [show (53 : ℕ) = 52 + 1 from rfl, List.replicate_succ' 52 (FVal.fin 0)]
  rw [List.zipWith_append _ _ _ _ _ (by simp), zipWith_replicate_eq]
  congr 1
  · congr 1
    norm_num [FVal.fadd, FVal.fdiv]
  · show [FVal.fdiv (FVal.fadd (FVal.fin 1) (FVal.fin 0))
      (FVal.fadd (FVal.fin 1) (FVal.fin (-1)))] = _
    rw [show FVal.fadd (FVal.fin 1) (FVal.fin 0) = FVal.fin 1 by
      norm_num [FVal.fadd]]
    rw [show FVal.fadd (FVal.fin 1) (FVal.fin (-1)) = FVal.fin 0 by
      norm_num [FVal.fadd]]
    norm_num [FVal.fdiv]

/-- Counterexample to C8: a benchmark wiped out in week 53
(`bench_ret = −1`).  The ratio cell is `+inf`, not a missing value, and
the 52-window rolling mean at index 53 evaluates to `+inf` — the window
neither excludes the index nor shrinks (a shrunk window of the 51
surviving ratios, all 1, would give 1). -/

theorem rs_shrinking_window_cex :
    (pct_changeF cexBench).getD 53 FVal.nan = FVal.fin (-1) ∧
    (rs_ratio cexStock cexBench).getD 53 FVal.nan = FVal.inf ∧
    (rs_smoothed cexStock cexBench).getD 53 FVal.nan = FVal.inf ∧
    FVal.inf ≠ FVal.nan ∧ FVal.inf ≠ FVal.fin 1 := by
  have hlen : (rs_ratio cexStock cexBench).length = 54 := by
    rw [ratio_cex]
    simp
  refine ⟨?_, ?_, ?_, by simp, by simp⟩
  · rw [pct_cexBench, List.getD_cons_succ, List.getD_append_right _ _ _ _ (by simp)]
    simp
  · rw [ratio_cex, List.getD_cons_succ, List.getD_append_right _ _ _ _ (by simp)]
    simp
  · rw [rs_smoothed, rollingMeanF_getD, if_pos ⟨by omega, by omega⟩]
    rw [ratio_cex]
    have hwin : ((FVal.nan :: (List.replicate 52 (FVal.fin 1) ++ [FVal.inf])).drop
        (53 + 1 - 52)).take 52 = List.replicate 51 (FVal.fin 1) ++ [FVal.inf] := by
      rw [show (53 + 1 - 52 : ℕ) = 2 from rfl]
      rw [show (FVal.nan :: (List.replicate 52 (FVal.fin 1) ++ [FVal.inf])).drop 2 =
          (List.replicate 52 (FVal.fin 1) ++ [FVal.inf]).drop 1 from rfl]
      rw [show (52 : ℕ) = 51 + 1 from rfl, List.replicate_succ, List.cons_append,
        List.drop_one, List.tail_cons]
      rw [List.take_of_length_le (by simp)]
    rw [hwin]
    have hmem : ∀ x ∈ List.replicate 51 (FVal.fin 1) ++ [FVal.inf],
        x = FVal.inf ∨ ∃ q, x = FVal.fin q := by
      intro x hx
      rcases List.mem_append.mp hx with hx | hx
      · exact Or.inr ⟨1, List.eq_of_mem_replicate hx⟩
      · rcases List.mem_cons.mp hx with rfl | hx
        · exact Or.inl rfl
        · exact absurd hx (by simp)
    have hany : (List.replicate 51 (FVal.fin 1) ++ [FVal.inf]).any FVal.isNan = false := by
      rw [List.any_eq_false]
      intro x hx
      rcases hmem x hx with rfl | ⟨q, rfl⟩ <;> simp [FVal.isNan]
    rw [hany]
    rw [foldl_fadd_with_inf _ 0 hmem (by simp)]
    norm_num [FVal.fdiv]

/-- **C8 (amended).** The smoothed RS is the 52-period rolling mean of the
return ratio and is missing before 52 periods exist; but a
`bench_ret = −1` index is not excluded and the window does not shrink:
the ratio cell there is `+inf` whenever the stock return exceeds −1, and
a missing ratio cell makes every full 52-window containing it produce a
missing mean. -/

theorem rs_missing_semantics :
    (∀ (stock bench : List ℚ) (i : ℕ), i + 1 < 52 →
      (rs_smoothed stock bench).getD i FVal.nan = FVal.nan) ∧
    (∀ (stock bench : List ℚ) (i j : ℕ), j ≤ i → i + 1 - 52 ≤ j →
      i < (rs_ratio stock bench).length →
      (rs_ratio stock bench).getD j FVal.nan = FVal.nan →
      (rs_smoothed stock bench).getD i FVal.nan = FVal.nan) ∧
    (∀ (stock bench : List ℚ) (i : ℕ) (s : ℚ), -1 < s →
      i < (pct_changeF stock).length → i < (pct_changeF bench).length →
      (pct_changeF stock).getD i FVal.nan = FVal.fin s →
      (pct_changeF bench).getD i FVal.nan = FVal.fin (-1) →
      (rs_ratio stock bench).getD i FVal.nan = FVal.inf) := by
  refine ⟨?_, ?_, ?_⟩
  · intro stock bench i hi
    rw [rs_smoothed, rollingMeanF_getD, if_neg]
    intro h
    omega
  · intro stock bench i j hji hjk hilen hj
    rw [rs_smoothed, rollingMeanF_getD]
    by_cases hcomp : i < (rs_ratio stock bench).length ∧ 52 ≤ i + 1
    · rw [if_pos hcomp]
      set xs := rs_ratio stock bench with hxs
      have hjlen : j < xs.length := lt_of_le_of_lt hji hilen
      have hjel : xs.getD j FVal.nan = xs.get ⟨j, hjlen⟩ := by
        rw [List.getD_eq_getElem xs FVal.nan hjlen, List.get_eq_getElem]
      have hjnan : xs.get ⟨j, hjlen⟩ = FVal.nan := by rw [← hjel, hj]
      have hm : j - (i + 1 - 52) < ((xs.drop (i + 1 - 52)).take 52).length := by
        rw [List.length_take, List.length_drop]
        omega
      have hval : ((xs.drop (i + 1 - 52)).take 52).get ⟨j - (i + 1 - 52), hm⟩ =
          xs.get ⟨j, hjlen⟩ := by
        have hidx : i + 1 - 52 + (j - (i + 1 - 52)) = j := by omega
        rw [List.get_eq_getElem, List.get_eq_getElem, List.getElem_take, List.getElem_drop]
        simp only [hidx]
      have hany : ((xs.drop (i + 1 - 52)).take 52).any FVal.isNan = true := by
        rw [List.any_eq_true]
        refine ⟨((xs.drop (i + 1 - 52)).take 52).get ⟨j - (i + 1 - 52), hm⟩, ?_, ?_⟩
        · rw [List.get_eq_getElem]
          exact List.getElem_mem _
        · rw [hval, hjnan]
          rfl
      rw [hany]
      simp
    · rw [if_neg hcomp]
  · intro stock bench i sr hs hls hlb hgs hgb
    rw [rs_ratio, getD_zipWith_of_lt _ _ _ i hls hlb FVal.nan FVal.nan FVal.nan, hgs, hgb]
    rw [show FVal.fadd (FVal.fin 1) (FVal.fin sr) = FVal.fin (1 + sr) from rfl]
    rw [show FVal.fadd (FVal.fin 1) (FVal.fin (-1)) = FVal.fin (1 + -1) from rfl]
    rw [show (1 : ℚ) + -1 = 0 by norm_num]
    have h1 : (1 : ℚ) + sr ≠ 0 := by linarith
    have h2 : (0 : ℚ) < 1 + sr := by linarith
    simp [FVal.fdiv, h1, h2]

/-- Witness for amended C8: part one at an early index of the
counterexample series, part two at index 51 (window containing the
missing index-0 ratio), part three at the wipe-out index 53. -/

theorem rs_missing_semantics_witness :
    (rs_smoothed cexStock cexBench).getD 10 FVal.nan = FVal.nan ∧
    (rs_smoothed cexStock cexBench).getD 51 FVal.nan = FVal.nan ∧
    (rs_ratio cexStock cexBench).getD 53 FVal.nan = FVal.inf := by
  have h := rs_missing_semantics
  refine ⟨h.1 cexStock cexBench 10 (by norm_num), ?_, ?_⟩
  · refine h.2.1 cexStock cexBench 51 0 (by norm_num) (by norm_num) ?_ ?_
    · rw [ratio_cex]
      simp
    · rw [ratio_cex]
      rfl
  · refine h.2.2 cexStock cexBench 53 0 (by norm_num) ?_ ?_ ?_ ?_
    · rw [pct_cexStock]
      simp
    · rw [pct_cexBench]
      simp
    · rw [pct_cexStock, List.getD_cons_succ]
      rw [List.getD_eq_getElem _ _ (by simp)]
      simp
    · rw [pct_cexBench, List.getD_cons_succ, List.getD_append_right _ _ _ _ (by simp)]
      simp

theorem mergeSort_pair {α : Type _} (le : α → α → Bool) (a b : α) :
    List.mergeSort [a, b] le = if le a b then [a, b] else [b, a] := by
  rw [List.mergeSort]
  simp only [List.splitInTwo_fst, List.splitInTwo_snd, List.length_cons, List.length_nil]
  norm_num
  cases h : le a b <;> simp [List.merge, List.mergeSort, h]

/-- Counterexample to C9: the route ranks by signed percent change with
input-order ties (stable sort), not by absolute change with
symbol-lexical ties.  A −10% mover ranks below a +1% mover, and two tied
movers keep their input order `B`, `A` rather than lexical `A`, `B`. -/

theorem sector_ranking_cex :
    topMovers [("A", 1), ("B", -10)] = [("A", 1), ("B", -10)] ∧
    claimed_topMovers [("A", 1), ("B", -10)] = [("B", -10), ("A", 1)] ∧
    topMovers [("A", 1), ("B", -10)] ≠ claimed_topMovers [("A", 1), ("B", -10)] ∧
    topMovers [("B", 5), ("A", 5)] = [("B", 5), ("A", 5)] ∧
    claimed_topMovers [("B", 5), ("A", 5)] = [("A", 5), ("B", 5)] := by
  have h1 : topMovers [("A", 1), ("B", -10)] = [("A", 1), ("B", -10)] := by
    rw [topMovers, mergeSort_pair, if_pos (by norm_num)]
    rfl
  have h2 : claimed_topMovers [("A", 1), ("B", -10)] = [("B", -10), ("A", 1)] := by
    rw [claimed_topMovers, mergeSort_pair, if_neg]
    · rfl
    · rw [decide_eq_true_eq]
      push_neg
      constructor
      · rw [show |((-10 : ℚ))| = 10 by rw [abs_of_nonpos] <;> norm_num,
          show |(1 : ℚ)| = 1 by rw [abs_of_nonneg] <;> norm_num]
        norm_num
      · intro h
        rw [show |((-10 : ℚ))| = 10 by rw [abs_of_nonpos] <;> norm_num,
          show |(1 : ℚ)| = 1 by rw [abs_of_nonneg] <;> norm_num] at h
        norm_num at h
  have h4 : topMovers [("B", 5), ("A", 5)] = [("B", 5), ("A", 5)] := by
    rw [topMovers, mergeSort_pair, if_pos (by norm_num)]
    rfl
  have h5 : claimed_topMovers [("B", 5), ("A", 5)] = [("A", 5), ("B", 5)] := by
    rw [claimed_topMovers, mergeSort_pair, if_neg]
    · rfl
    · rw [decide_eq_true_eq]
      push_neg
      constructor
      · norm_num
      · intro _
        show ("A" : String) < "B"
        rw [String.lt_iff_toList_lt]
        decide
  refine ⟨h1, h2, ?_, h4, h5⟩
  rw [h1, h2]
  simp

/-- **C9 (amended).** Sector top-mover ranking is deterministic — rerunning
on identical input yields the identical list — and the output is the
members sorted by *signed* percent change in descending order, truncated
to at most 10 entries drawn from the input; ties keep input order
(stable sort) rather than symbol-lexical order. -/

theorem sector_ranking_deterministic (members : List (String × ℚ)) :
    topMovers members = topMovers members ∧
    List.Pairwise (fun a b : String × ℚ => b.2 ≤ a.2) (topMovers members) ∧
    (topMovers members).length = min 10 members.length ∧
    ∀ x ∈ topMovers members, x ∈ members := by
  refine ⟨rfl, ?_, ?_, ?_⟩
  · have hs := @List.sorted_mergeSort (String × ℚ) (fun a b => decide (b.2 ≤ a.2))
      (fun a b c hab hbc => by
        rw [decide_eq_true_eq] at *
        exact le_trans hbc hab)
      (fun a b => by
        rcases le_total a.2 b.2 with h | h <;> simp [h])
      members
    have ht := hs.sublist (List.take_sublist 10 _)
    exact ht.imp (fun h => by rwa [decide_eq_true_eq] at h)
  · rw [topMovers, List.length_take, List.length_mergeSort]
  · intro x hx
    rw [topMovers] at hx
    exact List.mem_mergeSort.mp (List.mem_of_mem_take hx)

theorem mem_insertRow {R V : Type _} (asc : Bool) (norm : V → V) (lt : V → V → Bool)
    (get : R → Option V) (r : R) :
    ∀ (l : List R) (x : R), x ∈ insertRow asc norm lt get r l ↔ x = r ∨ x ∈ l
  | [], x => by simp [insertRow]
  | s :: rest, x => by
    rw [insertRow]
    split_ifs with hc
    · simp [List.mem_cons]
    · rw [List.mem_cons, mem_insertRow asc norm lt get r rest x, List.mem_cons]
      tauto

theorem insertRow_pairwise {R V : Type _} (asc : Bool) (norm : V → V) (lt : V → V → Bool)
    (get : R → Option V) (r : R) :
    ∀ (l : List R),
      List.Pairwise (fun a b => get a = none → get b = none) l →
      List.Pairwise (fun a b => get a = none → get b = none)
        (insertRow asc norm lt get r l)
  | [], _ => List.pairwise_singleton _ r
  | s :: rest, hp => by
    rw [insertRow]
    split_ifs with hc
    · refine List.Pairwise.cons ?_ hp
      intro t _ hrnone
      exfalso
      rw [hrnone] at hc
      rw [show handleSortCompare asc norm lt none (get s) = 1 from rfl] at hc
      norm_num at hc
    · rcases List.pairwise_cons.mp hp with ⟨hs, hrest⟩
      refine List.Pairwise.cons ?_ (insertRow_pairwise asc norm lt get r rest hrest)
      intro t ht hsnone
      rcases (mem_insertRow asc norm lt get r rest t).mp ht with rfl | ht2
      · rcases hgr : get t with _ | x
        · rfl
        · exfalso
          apply hc
          rw [hsnone, hgr]
          rw [show handleSortCompare asc norm lt (some x) none = -1 from rfl]
          norm_num
      · exact hs t ht2 hsnone

/-- **C10.** In the Analysis table's column sort, for every sort key
projection and both sort directions, every row whose cell for the key is
null is placed after all rows with non-null cells: in the sorted output,
a null row is never followed by a non-null row. -/

theorem handleSort_nulls_last {R V : Type _} (asc : Bool) (norm : V → V)
    (lt : V → V → Bool) (get : R → Option V) (rows : List R) :
    List.Pairwise (fun a b => get a = none → get b = none)
      (sortRows asc norm lt get rows) := by
  rw [sortRows]
  induction rows with
  | nil => exact List.Pairwise.nil
  | cons r rest ih =>
    rw [List.foldr_cons]
    exact insertRow_pairwise asc norm lt get r _ ih

end Screener
